import Mathlib

/-!
Shallow embedding of the sales anomaly-correction pipeline
(`src/correct_sales.py`).  Dates are modelled as integer day numbers,
cumulative totals as integers, and the data frame of
`process_sales_data` as functions from row index to the column values.
Missing values (`NaN`) are modelled as `none`.  The isolation-forest
model is an opaque parameter: a function from a seed, a contamination
configuration and the feature matrix to a per-row score (the code uses
`fit_predict`, returning `-1` for outliers).  Division inside the two
rounding sites (`round(total_delta / gap_size)` on line 51 and
`Daily_Sales.round()` on line 80) is modelled exactly over `ℚ` with
round-half-to-even semantics (Python's `round` and numpy's `round`
both round halves to even).
-/

namespace CorrectSales

/-- Provenance tag for a day's delta.  The source writes the strings
"Delta" (an original observed delta; the spec calls this `Original`)
and "Assumed" (an inferred value). -/
inductive Note where
  | Delta
  | Assumed
deriving DecidableEq, Repr

/-- A validated input row as supplied to `process_sales_data`:
`idx` is the pandas index label (the row's position in the raw CSV,
preserved by `drop_duplicates`/`sort_values` in `load_data`),
`date` the parsed date (day number), `total` the cumulative total. -/
structure Obs where
  idx : Nat
  date : Int
  total : Int
deriving DecidableEq, Repr

/-- A row after line 24-26: original index, date, total, the
day-over-day delta (`diff().fillna(0)`) and the provenance note. -/
structure NRow where
  idx : Nat
  date : Int
  total : Int
  daily : Int
  note : Note
deriving DecidableEq, Repr

/-- A row of the returned frame, restricted to the columns the output
collaborator consumes (line 93): date, original cumulative total (if
the day was observed), corrected daily delta, note. -/
structure OutRow where
  date : Int
  total : Option Int
  daily : Int
  note : Note
deriving DecidableEq, Repr

/-! ### load_data (lines 8-19): dedup by date keeping first, sort by date -/

/-- Attach the position `k, k+1, ...` as the pandas index label. -/
def enumObsFrom (k : Nat) : List (Int × Int) → List Obs
  | [] => []
  | p :: ps => ⟨k, p.1, p.2⟩ :: enumObsFrom (k + 1) ps

/-- Attach the original CSV position as the pandas index label.
Raw rows are `(date, total)` pairs in file order. -/
def enumRaw (raw : List (Int × Int)) : List Obs :=
  enumObsFrom 0 raw

/-- Embedding of `drop_duplicates(subset="Date", keep="first")`: drop any row whose
date was already seen earlier. -/
def dropDupAux (seen : List Int) : List Obs → List Obs
  | [] => []
  | x :: xs =>
    if x.date ∈ seen then dropDupAux seen xs
    else x :: dropDupAux (x.date :: seen) xs

/-- Deduplicate by date, keeping the first occurrence (line 15). -/
def dropDuplicates (l : List Obs) : List Obs := dropDupAux [] l

/-- Insert an observation into a date-sorted list. -/
def insertByDate (x : Obs) : List Obs → List Obs
  | [] => [x]
  | y :: ys => if x.date ≤ y.date then x :: y :: ys else y :: insertByDate x ys

/-- Embedding of `sort_values("Date")` (line 15).  Dates are unique after
deduplication, so any comparison sort yields this result. -/
def sortValues : List Obs → List Obs
  | [] => []
  | x :: xs => insertByDate x (sortValues xs)

/-- Embedding of `load_data` without the file handling: dedup by date keeping first, then
sort ascending by date, preserving the original index labels. -/
def load_data (raw : List (Int × Int)) : List Obs :=
  sortValues (dropDuplicates (enumRaw raw))

/-! ### Lines 24-26: daily deltas and initial notes -/

/-- Embedding of `df["Total Sales"].diff().fillna(0)` and the Notes column:
"Delta" everywhere, "Assumed" on the row whose index label is 0. -/
def diffNotes (prev : Option Int) : List Obs → List NRow
  | [] => []
  | x :: xs =>
    ⟨x.idx, x.date, x.total,
      (match prev with | none => 0 | some p => x.total - p),
      (if x.idx = 0 then Note.Assumed else Note.Delta)⟩ :: diffNotes (some x.total) xs

/-- The normalized series: lines 24-26 applied to the validated input. -/
def normalize (df : List Obs) : List NRow := diffNotes none df

/-! ### Lines 29-31: full calendar and reindex -/

/-- Embedding of `df["Date"].min()`. -/
def dminD : List Obs → Int
  | [] => 0
  | x :: xs => xs.foldl (fun a r => min a r.date) x.date

/-- Embedding of `df["Date"].max()`. -/
def dmaxD : List Obs → Int
  | [] => 0
  | x :: xs => xs.foldl (fun a r => max a r.date) x.date

/-- Length of `pd.date_range(min, max, freq="D")`: number of calendar
days from the minimum to the maximum observed date, inclusive. -/
def nDays (df : List Obs) : Nat := (dmaxD df - dminD df).toNat + 1

/-- Row lookup of the reindex: the (unique) normalized row carrying a
given date, if any. -/
def rowAt (nr : List NRow) (d : Int) : Option NRow :=
  nr.find? (fun r => decide (r.date = d))

/-- The "Total Sales" column of `df_full`: `none` for synthesized days. -/
def totF (df : List Obs) : Nat → Option Int :=
  fun j => (rowAt (normalize df) (dminD df + j)).map (fun r => r.total)

/-- The "Daily_Sales" column of `df_full` before gap filling. -/
def daily0F (df : List Obs) : Nat → Option Int :=
  fun j => (rowAt (normalize df) (dminD df + j)).map (fun r => r.daily)

/-- The "Notes" column of `df_full` before gap filling. -/
def note0F (df : List Obs) : Nat → Option Note :=
  fun j => (rowAt (normalize df) (dminD df + j)).map (fun r => r.note)

/-! ### Rounding -/

/-- Round half to even of the exact rational `num / den` (for
`den > 0`), the semantics of Python's `round` and of numpy/pandas
`.round()`.  `Int` division and remainder are euclidean, so for a
positive denominator `num / den` is the floor and `num % den` the
nonnegative remainder; the fractional part `(num % den) / den` is
compared against one half by cross-multiplication. -/
def roundHalfEven (num den : Int) : Int :=
  if 2 * (num % den) < den then num / den
  else if den < 2 * (num % den) then num / den + 1
  else if (num / den) % 2 = 0 then num / den else num / den + 1

/-- Embedding of `round(total_delta / gap_size)` of line 51, with the division
carried out exactly. -/
def iround (a : Int) (b : Nat) : Int := roundHalfEven a (b : Int)

/-! ### Lines 35-54: the gap-fill loop -/

/-- The backward scan of lines 37-41: from `k` move left while the
total is missing; pandas clamps `start_idx` at 0 when the scan runs
off the front. -/
def scanBack (tot : Nat → Option Int) : Nat → Nat
  | 0 => 0
  | k + 1 => if tot (k + 1) = none then scanBack tot k else k + 1

/-- Structural worker for the forward scan; the fuel bounds the
number of steps and `n - k` steps always suffice. -/
def scanFwdAux (tot : Nat → Option Int) (n : Nat) : Nat → Nat → Nat
  | 0, k => k
  | fuel + 1, k =>
    if k < n then (if tot k = none then scanFwdAux tot n fuel (k + 1) else k)
    else k

/-- The forward scan of lines 42-44: from `k` move right while the
total is missing, stopping at `n` when the scan runs off the end. -/
def scanFwd (tot : Nat → Option Int) (n k : Nat) : Nat :=
  scanFwdAux tot n (n - k) k

/-- Mutable state of the gap-fill loop: the "Daily_Sales" and "Notes"
columns (totals are never written by the loop). -/
def GapSt : Type := (Nat → Option Int) × (Nat → Option Note)

/-- One iteration of the loop body (lines 36-54) at row `i`:
`start_idx` is `scanBack tot (i-1)`, `end_idx` is `scanFwd tot n i`;
when `end_idx` is in range and both anchor totals are present
(line 48), rows `start_idx+1 .. end_idx` receive the uniform
`avg_delta` and the note "Assumed" (lines 52-54). -/
def gapIter (tot : Nat → Option Int) (n : Nat) (st : GapSt) (i : Nat) : GapSt :=
  if tot i = none ∨ i = n - 1 then
    if scanFwd tot n i < n then
      match tot (scanBack tot (i - 1)), tot (scanFwd tot n i) with
      | some sv, some ev =>
        (fun j => if scanBack tot (i - 1) + 1 ≤ j ∧ j ≤ scanFwd tot n i
            then some (iround (ev - sv) (scanFwd tot n i - scanBack tot (i - 1)))
            else st.1 j,
         fun j => if scanBack tot (i - 1) + 1 ≤ j ∧ j ≤ scanFwd tot n i
            then some Note.Assumed else st.2 j)
      | _, _ => st
    else st
  else st

/-- The whole loop `for i in range(1, len(df_final))`. -/
def gapFill (tot : Nat → Option Int) (n : Nat) (st : GapSt) : GapSt :=
  (List.range' 1 (n - 1)).foldl (gapIter tot n) st

/-- The "Daily_Sales" column after line 56: `fillna(0).astype(int)`. -/
def fillDaily (tot : Nat → Option Int) (n : Nat) (st : GapSt) : Nat → Int :=
  fun j => ((gapFill tot n st).1 j).getD 0

/-- The "Notes" column after line 57: `fillna("Assumed")`. -/
def fillNote (tot : Nat → Option Int) (n : Nat) (st : GapSt) : Nat → Note :=
  fun j => ((gapFill tot n st).2 j).getD Note.Assumed

/-- The "Daily_Sales" column of `df_final` after gap filling (line 56). -/
def daily1F (df : List Obs) : Nat → Int :=
  fillDaily (totF df) (nDays df) (daily0F df, note0F df)

/-- The "Notes" column of `df_final` after gap filling (line 57). -/
def note1F (df : List Obs) : Nat → Note :=
  fillNote (totF df) (nDays df) (daily0F df, note0F df)

/-! ### Lines 60-62: features -/

/-- The "Lag1" column: `shift(1).fillna(0)`. -/
def lag1F (df : List Obs) : Nat → Int :=
  fun j => if j = 0 then 0 else daily1F df (j - 1)

/-- The "Rolling_Mean" column: `rolling(window=3, min_periods=1).mean()`. -/
def rollMean (d : Nat → Int) (j : Nat) : ℚ :=
  if j = 0 then ((d 0 : Int) : ℚ)
  else if j = 1 then ((d 0 + d 1 : Int) : ℚ) / 2
  else ((d (j - 2) + d (j - 1) + d j : Int) : ℚ) / 3

/-- The feature matrix handed to the model (line 62). -/
def featList (df : List Obs) : List (Int × Int × ℚ) :=
  (List.range (nDays df)).map
    (fun j => (daily1F df j, lag1F df j, rollMean (daily1F df) j))

/-! ### Lines 65-71: detector -/

/-- The contamination configuration: a fraction or `"auto"`. -/
inductive Contam where
  | auto
  | frac (q : ℚ)

/-- The opaque outlier model: seed, contamination, feature matrix, row
index to score; `fit_predict` returns `-1` for outliers. -/
abbrev Model : Type := Nat → Contam → List (Int × Int × ℚ) → Nat → Int

/-- The "Anomaly_Score" column (line 66); `IsolationForest` is constructed with
`random_state=42`. -/
def scoresF (m : Model) (c : Contam) (df : List Obs) : Nat → Int :=
  m 42 c (featList df)

/-- Lines 67-71: a day is anomalous when the model scored it `-1` or
its daily delta is negative. -/
def anomOf (scores : Nat → Int) (d : Nat → Int) : Nat → Bool :=
  fun j => (scores j == -1) || decide (d j < 0)

/-- The per-day anomaly flag of the pipeline (line 71). -/
def anomF (m : Model) (c : Contam) (df : List Obs) : Nat → Bool :=
  anomOf (scoresF m c df) (daily1F df)

/-! ### Lines 78-81: corrector -/

/-- Line 78: flagged deltas become `NaN`. -/
def maskedOf (anom : Nat → Bool) (d : Nat → Int) : Nat → Option Int :=
  fun j => if anom j then none else some (d j)

/-- Index of the nearest valid value strictly before `j`, if any. -/
def prevSome (v : Nat → Option Int) : Nat → Option Nat
  | 0 => none
  | k + 1 => if (v k).isSome then some k else prevSome v k

/-- Structural worker for the forward search of the next valid
value; `n - k` steps always suffice. -/
def nextSomeAux (v : Nat → Option Int) (n : Nat) : Nat → Nat → Option Nat
  | 0, _ => none
  | fuel + 1, k =>
    if k < n then (if (v k).isSome then some k else nextSomeAux v n fuel (k + 1))
    else none

/-- Index of the first valid value at or after `k` (and below `n`),
if any. -/
def nextSome (v : Nat → Option Int) (n k : Nat) : Option Nat :=
  nextSomeAux v n (n - k) k

/-- Line 79, `interpolate(method="linear").fillna(0)` at row `j`,
returned as an exact fraction (numerator, denominator): valid entries
are kept; a missing entry with valid neighbours `p < j < q` is
linearly interpolated over the row index, the value
`vp + (vq - vp) * (j - p) / (q - p)` written over the positive
denominator `q - p`; a missing entry with only a preceding valid
value is padded with that value (pandas fills trailing `NaN`s forward
under the default `limit_direction="forward"`); leading missing
entries stay `NaN` and become 0 through `fillna(0)`. -/
def interpVal (v : Nat → Option Int) (n j : Nat) : Int × Int :=
  match v j with
  | some x => (x, 1)
  | none =>
    match prevSome v j, nextSome v n (j + 1) with
    | some p, some q =>
        ((v p).getD 0 * ((q : Int) - (p : Int)) +
          ((v q).getD 0 - (v p).getD 0) * ((j : Int) - (p : Int)),
         (q : Int) - (p : Int))
    | some p, none => ((v p).getD 0, 1)
    | none, _ => (0, 1)

/-- Line 79-80: interpolated "Daily_Sales", rounded back to integers
(numpy `.round()` rounds halves to even). -/
def corrDaily (v : Nat → Option Int) (n : Nat) : Nat → Int :=
  fun j => roundHalfEven (interpVal v n j).1 (interpVal v n j).2

/-- Line 81: corrected days are re-tagged "Assumed". -/
def corrNote (anom : Nat → Bool) (nt : Nat → Note) : Nat → Note :=
  fun j => if anom j then Note.Assumed else nt j

/-- Corrected "Daily_Sales" of the returned frame. -/
def dailyOutF (m : Model) (c : Contam) (df : List Obs) : Nat → Int :=
  corrDaily (maskedOf (anomF m c df) (daily1F df)) (nDays df)

/-- Final "Notes" of the returned frame. -/
def noteOutF (m : Model) (c : Contam) (df : List Obs) : Nat → Note :=
  corrNote (anomF m c df) (note1F df)

/-- The full pipeline `process_sales_data`, projected to the columns
the output collaborator consumes. -/
def process_sales_data (m : Model) (c : Contam) (df : List Obs) : List OutRow :=
  (List.range (nDays df)).map
    (fun (j : Nat) => ⟨dminD df + (j : Int), totF df j, dailyOutF m c df j, noteOutF m c df j⟩)

/-! ### Helper lemmas: rounding -/

theorem roundHalfEven_one (x : Int) : roundHalfEven x 1 = x := by
  unfold roundHalfEven
  omega

theorem iround_one (a : Int) : iround a 1 = a := roundHalfEven_one a

/-! ### Helper lemmas: the two scans -/

theorem scanBack_le (tot : Nat → Option Int) (k : Nat) : scanBack tot k ≤ k := by
  induction k with
  | zero => simp [scanBack]
  | succ k ih =>
    unfold scanBack
    split
    · omega
    · omega

theorem scanBack_self (tot : Nat → Option Int) (k : Nat) (h : tot k ≠ none) :
    scanBack tot k = k := by
  cases k with
  | zero => rfl
  | succ k => unfold scanBack; simp [h]

theorem scanBack_eq_of (tot : Nat → Option Int) (s k : Nat) (hsk : s ≤ k)
    (hs : tot s ≠ none) (hmid : ∀ m, s < m → m ≤ k → tot m = none) :
    scanBack tot k = s := by
  induction k with
  | zero =>
    have : s = 0 := by omega
    subst this; rfl
  | succ k ih =>
    rcases Nat.lt_or_ge s (k + 1) with hlt | hge
    · have hnone : tot (k + 1) = none := hmid (k + 1) hlt (le_refl _)
      unfold scanBack
      rw [if_pos hnone]
      exact ih (by omega) (fun m h1 h2 => hmid m h1 (by omega))
    · have : s = k + 1 := by omega
      subst this
      exact scanBack_self tot _ hs

theorem scanBack_ge_of_known (tot : Nat → Option Int) (e k : Nat) (hek : e ≤ k)
    (he : tot e ≠ none) : e ≤ scanBack tot k := by
  induction k with
  | zero => omega
  | succ k ih =>
    unfold scanBack
    split
    · rename_i hnone
      have : e ≠ k + 1 := fun h => he (h ▸ hnone)
      exact ih (by omega)
    · omega

theorem scanFwdAux_of_ge (tot : Nat → Option Int) (n : Nat) :
    ∀ fuel k, n ≤ k → scanFwdAux tot n fuel k = k := by
  intro fuel k h
  cases fuel with
  | zero => rfl
  | succ fuel =>
    unfold scanFwdAux
    rw [if_neg (by omega)]

theorem scanFwdAux_irrel (tot : Nat → Option Int) (n : Nat) :
    ∀ f₁ f₂ k, n - k ≤ f₁ → n - k ≤ f₂ →
      scanFwdAux tot n f₁ k = scanFwdAux tot n f₂ k := by
  intro f₁
  induction f₁ with
  | zero =>
    intro f₂ k h1 h2
    rw [scanFwdAux_of_ge tot n 0 k (by omega), scanFwdAux_of_ge tot n f₂ k (by omega)]
  | succ f₁ ih =>
    intro f₂ k h1 h2
    rcases Nat.lt_or_ge k n with hk | hk
    · cases f₂ with
      | zero => omega
      | succ f₂ =>
        unfold scanFwdAux
        rw [if_pos hk, if_pos hk]
        split
        · exact ih f₂ (k + 1) (by omega) (by omega)
        · rfl
    · rw [scanFwdAux_of_ge tot n _ k hk, scanFwdAux_of_ge tot n f₂ k hk]

/-- One-step unfolding of `scanFwd`, matching the while loop of
lines 42-44. -/
theorem scanFwd_step (tot : Nat → Option Int) (n k : Nat) :
    scanFwd tot n k =
      if k < n then (if tot k = none then scanFwd tot n (k + 1) else k)
      else k := by
  unfold scanFwd
  rcases Nat.lt_or_ge k n with hk | hk
  · obtain ⟨m, hm⟩ : ∃ m, n - k = m + 1 := ⟨n - k - 1, by omega⟩
    rw [hm]
    conv_lhs => unfold scanFwdAux
    rw [if_pos hk, if_pos hk]
    by_cases hnone : tot k = none
    · rw [if_pos hnone, if_pos hnone]
      exact scanFwdAux_irrel tot n m (n - (k + 1)) (k + 1) (by omega) (by omega)
    · rw [if_neg hnone, if_neg hnone]
  · rw [if_neg (by omega), scanFwdAux_of_ge tot n _ k hk]

theorem scanFwd_ge (tot : Nat → Option Int) (n k : Nat) : k ≤ scanFwd tot n k := by
  rw [scanFwd_step]
  split
  · split
    · have := scanFwd_ge tot n (k + 1)
      omega
    · omega
  · omega
termination_by n - k
decreasing_by omega

theorem scanFwd_known_of_lt (tot : Nat → Option Int) (n k : Nat)
    (h : scanFwd tot n k < n) : tot (scanFwd tot n k) ≠ none := by
  rw [scanFwd_step] at h ⊢
  by_cases hkn : k < n
  · rw [if_pos hkn] at h ⊢
    by_cases hnone : tot k = none
    · rw [if_pos hnone] at h ⊢
      exact scanFwd_known_of_lt tot n (k + 1) h
    · rw [if_neg hnone] at h ⊢
      exact hnone
  · rw [if_neg hkn] at h ⊢
    exact absurd h hkn
termination_by n - k
decreasing_by omega

theorem scanFwd_eq_of (tot : Nat → Option Int) (n k e : Nat) (hke : k ≤ e)
    (hen : e < n) (he : tot e ≠ none)
    (hmid : ∀ m, k ≤ m → m < e → tot m = none) :
    scanFwd tot n k = e := by
  rcases Nat.lt_or_ge k e with hlt | hge
  · have hkn : k < n := by omega
    have hnone : tot k = none := hmid k (le_refl _) hlt
    rw [scanFwd_step, if_pos hkn, if_pos hnone]
    exact scanFwd_eq_of tot n (k + 1) e (by omega) hen he
      (fun m h1 h2 => hmid m (by omega) h2)
  · have hke' : k = e := by omega
    subst hke'
    rw [scanFwd_step, if_pos hen, if_neg he]
termination_by e - k
decreasing_by omega

theorem scanFwd_le_of_known (tot : Nat → Option Int) (n k s : Nat) (hks : k ≤ s)
    (hsn : s < n) (hs : tot s ≠ none) : scanFwd tot n k ≤ s := by
  rcases Nat.lt_or_ge k s with hlt | hge
  · rw [scanFwd_step, if_pos (by omega : k < n)]
    split
    · exact scanFwd_le_of_known tot n (k + 1) s (by omega) hsn hs
    · omega
  · have hks' : k = s := by omega
    subst hks'
    rw [scanFwd_step, if_pos hsn, if_neg hs]
termination_by s - k
decreasing_by omega

/-! ### Helper lemmas: folds -/

theorem foldl_pres {α σ : Type} (f : σ → α → σ) (Q : σ → Prop) :
    ∀ (l : List α) (st : σ), (∀ i ∈ l, ∀ s, Q s → Q (f s i)) → Q st →
      Q (l.foldl f st)
  | [], st, _, hst => hst
  | i :: l, st, hpres, hst =>
    foldl_pres f Q l (f st i) (fun a ha s hs => hpres a (List.mem_cons_of_mem _ ha) s hs)
      (hpres i (List.mem_cons_self _ _) st hst)

theorem foldl_est {α σ : Type} (f : σ → α → σ) (Q : σ → Prop) (l : List α)
    (i₀ : α) (hest : ∀ s, Q (f s i₀)) :
    ∀ (st : σ), i₀ ∈ l → (∀ i ∈ l, ∀ s, Q s → Q (f s i)) → Q (l.foldl f st) := by
  induction l with
  | nil => intro st hmem _; cases hmem
  | cons a l ih =>
    intro st hmem hpres
    rcases List.mem_cons.mp hmem with h | h
    · subst h
      exact foldl_pres f Q l (f st i₀)
        (fun i hi s hs => hpres i (List.mem_cons_of_mem _ hi) s hs) (hest st)
    · exact ih (f st a) h (fun i hi s hs => hpres i (List.mem_cons_of_mem _ hi) s hs)

/-! ### Helper lemmas: the gap-fill loop -/

theorem gapIter_write_point (tot : Nat → Option Int) (n : Nat) (st : GapSt)
    (i : Nat) (sv ev : Int)
    (h1 : tot i = none ∨ i = n - 1) (h2 : scanFwd tot n i < n)
    (h3 : tot (scanBack tot (i - 1)) = some sv)
    (h4 : tot (scanFwd tot n i) = some ev) :
    (∀ j, (gapIter tot n st i).1 j =
      if scanBack tot (i - 1) + 1 ≤ j ∧ j ≤ scanFwd tot n i
      then some (iround (ev - sv) (scanFwd tot n i - scanBack tot (i - 1)))
      else st.1 j) ∧
    (∀ j, (gapIter tot n st i).2 j =
      if scanBack tot (i - 1) + 1 ≤ j ∧ j ≤ scanFwd tot n i
      then some Note.Assumed else st.2 j) := by
  unfold gapIter
  rw [if_pos h1, if_pos h2, h3, h4]
  exact ⟨fun j => rfl, fun j => rfl⟩

theorem gapIter_point_unch (tot : Nat → Option Int) (n : Nat) (st : GapSt)
    (i j : Nat)
    (h : (tot i = none ∨ i = n - 1) → scanFwd tot n i < n →
      tot (scanBack tot (i - 1)) ≠ none →
      j < scanBack tot (i - 1) + 1 ∨ scanFwd tot n i < j) :
    (gapIter tot n st i).1 j = st.1 j ∧ (gapIter tot n st i).2 j = st.2 j := by
  by_cases h1 : tot i = none ∨ i = n - 1
  · by_cases h2 : scanFwd tot n i < n
    · rcases h3 : tot (scanBack tot (i - 1)) with _ | sv
      · unfold gapIter
        rw [if_pos h1, if_pos h2, h3]
        rcases h4 : tot (scanFwd tot n i) with _ | ev <;> exact ⟨rfl, rfl⟩
      · rcases h4 : tot (scanFwd tot n i) with _ | ev
        · unfold gapIter
          rw [if_pos h1, if_pos h2, h3, h4]
          exact ⟨rfl, rfl⟩
        · have hj := h h1 h2 (by simp [h3])
          have hw := gapIter_write_point tot n st i sv ev h1 h2 h3 h4
          rw [hw.1 j, hw.2 j, if_neg (by omega), if_neg (by omega)]
          exact ⟨rfl, rfl⟩
    · unfold gapIter
      rw [if_pos h1, if_neg h2]
      exact ⟨rfl, rfl⟩
  · unfold gapIter
    rw [if_neg h1]
    exact ⟨rfl, rfl⟩

theorem gapFill_point_eq (tot : Nat → Option Int) (n : Nat) (st : GapSt) (j : Nat)
    (h : ∀ i, 1 ≤ i → i < n → (tot i = none ∨ i = n - 1) → scanFwd tot n i < n →
      tot (scanBack tot (i - 1)) ≠ none →
      j < scanBack tot (i - 1) + 1 ∨ scanFwd tot n i < j) :
    (gapFill tot n st).1 j = st.1 j ∧ (gapFill tot n st).2 j = st.2 j := by
  unfold gapFill
  refine foldl_pres _ (fun s => s.1 j = st.1 j ∧ s.2 j = st.2 j) _ st ?_ ⟨rfl, rfl⟩
  intro i hi s hs
  have hb := List.mem_range'_1.mp hi
  have h' := gapIter_point_unch tot n s i j (fun a b c => h i hb.1 (by omega) a b c)
  exact ⟨h'.1.trans hs.1, h'.2.trans hs.2⟩

theorem seg_det (tot : Nat → Option Int) (n s e i j : Nat)
    (hs : tot s ≠ none) (he : tot e ≠ none) (hse : s < e) (hen : e < n)
    (hgap : ∀ k, s < k → k < e → tot k = none)
    (hjs : s < j) (hje : j ≤ e)
    (hcov1 : scanBack tot (i - 1) + 1 ≤ j) (hcov2 : j ≤ scanFwd tot n i)
    (hi : 1 ≤ i) :
    scanBack tot (i - 1) = s ∧ scanFwd tot n i = e := by
  rcases Nat.lt_or_ge s i with hgt | hle
  · rcases Nat.lt_or_ge i e with hlt | hge
    · constructor
      · exact scanBack_eq_of tot s (i - 1) (by omega) hs
          (fun m h1 h2 => hgap m h1 (by omega))
      · exact scanFwd_eq_of tot n i e (by omega) hen he
          (fun m h1 h2 => hgap m (by omega) h2)
    · rcases Nat.eq_or_lt_of_le hge with h' | h'
      · constructor
        · exact scanBack_eq_of tot s (i - 1) (by omega) hs
            (fun m h1 h2 => hgap m h1 (by omega))
        · rw [← h']
          exact scanFwd_eq_of tot n e e (le_refl _) hen he (fun m h1 h2 => by omega)
      · have := scanBack_ge_of_known tot e (i - 1) (by omega) he
        omega
  · have := scanFwd_le_of_known tot n i s hle (by omega) hs
    omega

theorem gapFill_gap_core (tot : Nat → Option Int) (n : Nat) (st : GapSt)
    (s e : Nat) (sv ev : Int) (i₀ : Nat)
    (hs : tot s = some sv) (he : tot e = some ev) (hse : s < e) (hen : e < n)
    (hgap : ∀ k, s < k → k < e → tot k = none)
    (hi₀1 : 1 ≤ i₀) (hi₀n : i₀ < n)
    (htrg : tot i₀ = none ∨ i₀ = n - 1)
    (hsb : scanBack tot (i₀ - 1) = s) (hsf : scanFwd tot n i₀ = e) :
    ∀ j, s < j → j ≤ e →
      (gapFill tot n st).1 j = some (iround (ev - sv) (e - s)) ∧
      (gapFill tot n st).2 j = some Note.Assumed := by
  intro j hjs hje
  have hsne : tot s ≠ none := by simp [hs]
  have hene : tot e ≠ none := by simp [he]
  have hmem : i₀ ∈ List.range' 1 (n - 1) := List.mem_range'_1.mpr ⟨hi₀1, by omega⟩
  unfold gapFill
  refine foldl_est _
    (fun st' => st'.1 j = some (iround (ev - sv) (e - s)) ∧
      st'.2 j = some Note.Assumed) _ i₀ ?_ st hmem ?_
  · intro s'
    have hw := gapIter_write_point tot n s' i₀ sv ev htrg
      (by rw [hsf]; exact hen) (by rw [hsb]; exact hs) (by rw [hsf]; exact he)
    rw [hsb, hsf] at hw
    constructor
    · rw [hw.1 j, if_pos ⟨by omega, hje⟩]
    · rw [hw.2 j, if_pos ⟨by omega, hje⟩]
  · intro i hi s' hQ
    have hb := List.mem_range'_1.mp hi
    by_cases hc : (tot i = none ∨ i = n - 1) ∧ scanFwd tot n i < n ∧
        tot (scanBack tot (i - 1)) ≠ none ∧
        scanBack tot (i - 1) + 1 ≤ j ∧ j ≤ scanFwd tot n i
    · obtain ⟨hc1, hc2, hc3, hc4, hc5⟩ := hc
      have hseg := seg_det tot n s e i j hsne hene hse hen hgap hjs hje hc4 hc5 hb.1
      have hw := gapIter_write_point tot n s' i sv ev hc1 hc2
        (by rw [hseg.1]; exact hs) (by rw [hseg.2]; exact he)
      rw [hseg.1, hseg.2] at hw
      constructor
      · rw [hw.1 j, if_pos ⟨by omega, hje⟩]
      · rw [hw.2 j, if_pos ⟨by omega, hje⟩]
    · have h' := gapIter_point_unch tot n s' i j (by
        intro a b c
        by_contra hnot
        push_neg at hnot
        exact hc ⟨a, b, c, by omega, by omega⟩)
      exact ⟨h'.1.trans hQ.1, h'.2.trans hQ.2⟩

/-! ### Helper lemmas: the corrector -/

theorem corrDaily_valid (v : Nat → Option Int) (n j : Nat) (x : Int)
    (h : v j = some x) : corrDaily v n j = x := by
  unfold corrDaily interpVal
  simp only [h]
  exact roundHalfEven_one x

theorem prevSome_none (v : Nat → Option Int) (j : Nat)
    (h : ∀ k, k < j → v k = none) : prevSome v j = none := by
  induction j with
  | zero => rfl
  | succ j ih =>
    unfold prevSome
    rw [h j (by omega)]
    simp only [Option.isSome_none, Bool.false_eq_true, if_false]
    exact ih (fun k hk => h k (by omega))

theorem prevSome_eq (v : Nat → Option Int) (p j : Nat) (hp : v p ≠ none)
    (hpj : p < j) (hmid : ∀ k, p < k → k < j → v k = none) :
    prevSome v j = some p := by
  induction j with
  | zero => omega
  | succ j ih =>
    rcases Nat.lt_or_ge p j with hlt | hge
    · unfold prevSome
      rw [hmid j hlt (by omega)]
      simp only [Option.isSome_none, Bool.false_eq_true, if_false]
      exact ih hlt (fun k h1 h2 => hmid k h1 (by omega))
    · have hpe : p = j := by omega
      subst hpe
      unfold prevSome
      rw [if_pos (Option.ne_none_iff_isSome.mp hp)]

theorem nextSomeAux_of_ge (v : Nat → Option Int) (n : Nat) :
    ∀ fuel k, n ≤ k → nextSomeAux v n fuel k = none := by
  intro fuel k h
  cases fuel with
  | zero => rfl
  | succ fuel =>
    unfold nextSomeAux
    rw [if_neg (by omega)]

theorem nextSomeAux_irrel (v : Nat → Option Int) (n : Nat) :
    ∀ f₁ f₂ k, n - k ≤ f₁ → n - k ≤ f₂ →
      nextSomeAux v n f₁ k = nextSomeAux v n f₂ k := by
  intro f₁
  induction f₁ with
  | zero =>
    intro f₂ k h1 h2
    rw [nextSomeAux_of_ge v n 0 k (by omega), nextSomeAux_of_ge v n f₂ k (by omega)]
  | succ f₁ ih =>
    intro f₂ k h1 h2
    rcases Nat.lt_or_ge k n with hk | hk
    · cases f₂ with
      | zero => omega
      | succ f₂ =>
        unfold nextSomeAux
        rw [if_pos hk, if_pos hk]
        split
        · rfl
        · exact ih f₂ (k + 1) (by omega) (by omega)
    · rw [nextSomeAux_of_ge v n _ k hk, nextSomeAux_of_ge v n f₂ k hk]

/-- One-step unfolding of `nextSome`. -/
theorem nextSome_step (v : Nat → Option Int) (n k : Nat) :
    nextSome v n k =
      if k < n then (if (v k).isSome then some k else nextSome v n (k + 1))
      else none := by
  unfold nextSome
  rcases Nat.lt_or_ge k n with hk | hk
  · obtain ⟨m, hm⟩ : ∃ m, n - k = m + 1 := ⟨n - k - 1, by omega⟩
    rw [hm]
    conv_lhs => unfold nextSomeAux
    rw [if_pos hk, if_pos hk]
    by_cases hsome : (v k).isSome
    · rw [if_pos hsome, if_pos hsome]
    · rw [if_neg hsome, if_neg hsome]
      exact nextSomeAux_irrel v n m (n - (k + 1)) (k + 1) (by omega) (by omega)
  · rw [if_neg (by omega), nextSomeAux_of_ge v n _ k hk]

theorem nextSome_none (v : Nat → Option Int) (n k₀ : Nat)
    (h : ∀ k, k₀ ≤ k → k < n → v k = none) : nextSome v n k₀ = none := by
  rw [nextSome_step]
  split
  · rename_i hk
    rw [h k₀ (le_refl _) hk]
    simp only [Option.isSome_none, Bool.false_eq_true, if_false]
    exact nextSome_none v n (k₀ + 1) (fun k h1 h2 => h k (by omega) h2)
  · rfl
termination_by n - k₀
decreasing_by omega

theorem corr_leading (anom : Nat → Bool) (d : Nat → Int) (n j : Nat)
    (h : ∀ k, k ≤ j → anom k = true) :
    corrDaily (maskedOf anom d) n j = 0 := by
  have hj : maskedOf anom d j = none := by simp [maskedOf, h j (le_refl _)]
  have hprev : prevSome (maskedOf anom d) j = none :=
    prevSome_none _ _ (fun k hk => by simp [maskedOf, h k (by omega)])
  unfold corrDaily interpVal
  simp only [hj, hprev]
  exact roundHalfEven_one 0

theorem corr_trailing (anom : Nat → Bool) (d : Nat → Int) (n p j : Nat)
    (hp : anom p = false) (hpj : p < j) (hjn : j < n)
    (hafter : ∀ k, p < k → k < n → anom k = true) :
    corrDaily (maskedOf anom d) n j = d p := by
  have hj : maskedOf anom d j = none := by simp [maskedOf, hafter j hpj hjn]
  have hvp : maskedOf anom d p = some (d p) := by simp [maskedOf, hp]
  have hprev : prevSome (maskedOf anom d) j = some p :=
    prevSome_eq _ p j (by simp [hvp]) hpj
      (fun k h1 h2 => by simp [maskedOf, hafter k h1 (by omega)])
  have hnext : nextSome (maskedOf anom d) n (j + 1) = none :=
    nextSome_none _ _ _ (fun k h1 h2 => by simp [maskedOf, hafter k (by omega) h2])
  unfold corrDaily interpVal
  simp only [hj, hprev, hnext, hvp, Option.getD_some]
  exact roundHalfEven_one (d p)

/-! ### Concrete inputs used by witnesses and counterexamples -/

/-- A model that never reports an outlier (every score is `1`). -/
def m0 : Model := fun _ _ _ _ => 1

/-- The spec's gap scenario `[(1/1,100),(1/3,130)]` (day numbers 1 and 3). -/
def dfA : List Obs := load_data [(1, 100), (3, 130)]

/-- The same observations given in reverse (unsorted) file order. -/
def dfB : List Obs := load_data [(3, 130), (1, 100)]

/-- A gap-free three-day series. -/
def dfC : List Obs := load_data [(1, 100), (2, 110), (3, 130)]

/-- A gap-free series whose last delta is negative (so the last day is
flagged anomalous by the negative override). -/
def dfD : List Obs := load_data [(1, 10), (2, 20), (3, 15)]

/-! ### Helper lemmas: the calendar bounds -/

theorem foldl_min_le_init (xs : List Obs) (a : Int) :
    xs.foldl (fun a r => min a r.date) a ≤ a := by
  induction xs generalizing a with
  | nil => exact le_refl a
  | cons r l ih => exact le_trans (ih (min a r.date)) (min_le_left _ _)

theorem foldl_min_le_mem (xs : List Obs) :
    ∀ (a : Int) (r : Obs), r ∈ xs → xs.foldl (fun a r => min a r.date) a ≤ r.date := by
  induction xs with
  | nil => intro a r h; cases h
  | cons y l ih =>
    intro a r h
    rcases List.mem_cons.mp h with h' | h'
    · subst h'
      exact le_trans (foldl_min_le_init l _) (min_le_right _ _)
    · exact ih _ r h'

theorem le_foldl_min (xs : List Obs) (a b : Int) (hb : b ≤ a)
    (h : ∀ r ∈ xs, b ≤ r.date) :
    b ≤ xs.foldl (fun a r => min a r.date) a := by
  induction xs generalizing a with
  | nil => exact hb
  | cons y l ih =>
    exact ih (min a y.date)
      (le_min hb (h y (List.mem_cons_self _ _)))
      (fun r hr => h r (List.mem_cons_of_mem _ hr))

theorem init_le_foldl_max (xs : List Obs) (a : Int) :
    a ≤ xs.foldl (fun a r => max a r.date) a := by
  induction xs generalizing a with
  | nil => exact le_refl a
  | cons r l ih => exact le_trans (le_max_left _ _) (ih (max a r.date))

theorem mem_le_foldl_max (xs : List Obs) :
    ∀ (a : Int) (r : Obs), r ∈ xs → r.date ≤ xs.foldl (fun a r => max a r.date) a := by
  induction xs with
  | nil => intro a r h; cases h
  | cons y l ih =>
    intro a r h
    rcases List.mem_cons.mp h with h' | h'
    · subst h'
      exact le_trans (le_max_right _ _) (init_le_foldl_max l _)
    · exact ih _ r h'

theorem foldl_max_le (xs : List Obs) (a b : Int) (hb : a ≤ b)
    (h : ∀ r ∈ xs, r.date ≤ b) :
    xs.foldl (fun a r => max a r.date) a ≤ b := by
  induction xs generalizing a with
  | nil => exact hb
  | cons y l ih =>
    exact ih (max a y.date)
      (max_le hb (h y (List.mem_cons_self _ _)))
      (fun r hr => h r (List.mem_cons_of_mem _ hr))

theorem dminD_le_dmaxD (l : List Obs) (h : l ≠ []) : dminD l ≤ dmaxD l := by
  cases l with
  | nil => exact absurd rfl h
  | cons x xs =>
    exact le_trans (foldl_min_le_init xs x.date) (init_le_foldl_max xs x.date)

/-! ### Helper lemmas: load_data is nonempty on nonempty input -/

theorem insertByDate_ne_nil (x : Obs) (l : List Obs) : insertByDate x l ≠ [] := by
  cases l with
  | nil => simp [insertByDate]
  | cons y ys =>
    unfold insertByDate
    split <;> simp

theorem dropDuplicates_cons (x : Obs) (xs : List Obs) :
    dropDuplicates (x :: xs) = x :: dropDupAux [x.date] xs := by
  conv_lhs => unfold dropDuplicates dropDupAux
  rw [if_neg (by simp)]

theorem load_data_ne_nil (raw : List (Int × Int)) (h : raw ≠ []) :
    load_data raw ≠ [] := by
  cases raw with
  | nil => exact absurd rfl h
  | cons p ps =>
    show sortValues (dropDuplicates (enumObsFrom 0 (p :: ps))) ≠ []
    rw [show enumObsFrom 0 (p :: ps) = ⟨0, p.1, p.2⟩ :: enumObsFrom 1 ps from rfl,
      dropDuplicates_cons]
    exact insertByDate_ne_nil _ _

/-! ### Claim C2 -/

/-- C2: for every nonempty input, the output frame has exactly
`(max_date - min_date) + 1` records; the record at position `k`
carries the date `min_date + k` (so the dates are consecutive
calendar days with no gaps), they are pairwise distinct, and the last
one is `max_date`. -/
theorem c2_full_calendar (m : Model) (c : Contam) (raw : List (Int × Int))
    (h : raw ≠ []) :
    (process_sales_data m c (load_data raw)).length
        = (dmaxD (load_data raw) - dminD (load_data raw)).toNat + 1 ∧
    (∀ (k : Nat) (hk : k < (process_sales_data m c (load_data raw)).length),
        ((process_sales_data m c (load_data raw)).get ⟨k, hk⟩).date
          = dminD (load_data raw) + (k : Int)) ∧
    ((process_sales_data m c (load_data raw)).map (fun r => r.date)).Nodup ∧
    dminD (load_data raw)
        + (((process_sales_data m c (load_data raw)).length - 1 : Nat) : Int)
      = dmaxD (load_data raw) := by
  have hlen : (process_sales_data m c (load_data raw)).length = nDays (load_data raw) := by
    simp [process_sales_data]
  refine ⟨by simpa [nDays] using hlen, ?_, ?_, ?_⟩
  · intro k hk
    simp [process_sales_data, List.get_eq_getElem]
  · have hmap : (process_sales_data m c (load_data raw)).map (fun r => r.date)
        = (List.range (nDays (load_data raw))).map
            (fun (j : Nat) => dminD (load_data raw) + (j : Int)) := by
      unfold process_sales_data
      rw [List.map_map]
      rfl
    rw [hmap]
    refine (List.nodup_range _).map ?_
    intro a b hab
    have hab' : dminD (load_data raw) + (a : Int) = dminD (load_data raw) + (b : Int) := hab
    omega
  · have hmm := dminD_le_dmaxD (load_data raw) (load_data_ne_nil raw h)
    rw [hlen]
    unfold nDays
    omega

/-- C2 witness: the scenario input yields a 3-day calendar with
distinct dates. -/
theorem c2_witness :
    (process_sales_data m0 Contam.auto (load_data [(1, 100), (3, 130)])).length = 3 ∧
    ((process_sales_data m0 Contam.auto (load_data [(1, 100), (3, 130)])).map
      (fun r => r.date)).Nodup := by
  have h := c2_full_calendar m0 Contam.auto [(1, 100), (3, 130)] (by decide)
  constructor
  · rw [h.1]
    decide
  · exact h.2.2.1

/-! ### Helper lemmas: the normalized series -/

theorem diffNotes_length (l : List Obs) :
    ∀ (p : Option Int), (diffNotes p l).length = l.length := by
  induction l with
  | nil => intro p; rfl
  | cons x xs ih =>
    intro p
    show (diffNotes (some x.total) xs).length + 1 = xs.length + 1
    rw [ih]

theorem diffNotes_get_basic (l : List Obs) :
    ∀ (p : Option Int) (k : Nat) (h : k < (diffNotes p l).length)
      (h' : k < l.length),
      ((diffNotes p l).get ⟨k, h⟩).date = (l.get ⟨k, h'⟩).date ∧
      ((diffNotes p l).get ⟨k, h⟩).total = (l.get ⟨k, h'⟩).total ∧
      ((diffNotes p l).get ⟨k, h⟩).idx = (l.get ⟨k, h'⟩).idx ∧
      ((diffNotes p l).get ⟨k, h⟩).note
        = (if (l.get ⟨k, h'⟩).idx = 0 then Note.Assumed else Note.Delta) := by
  induction l with
  | nil => intro p k h h'; cases h'
  | cons x xs ih =>
    intro p k h h'
    cases k with
    | zero => exact ⟨rfl, rfl, rfl, rfl⟩
    | succ k =>
      have hx1 : k < xs.length := by
        simp only [List.length_cons] at h'
        omega
      exact ih (some x.total) k (by rw [diffNotes_length]; exact hx1) hx1

theorem diffNotes_get_daily (l : List Obs) :
    ∀ (p : Option Int) (k : Nat) (h : k + 1 < (diffNotes p l).length)
      (h' : k + 1 < l.length) (h'' : k < l.length),
      ((diffNotes p l).get ⟨k + 1, h⟩).daily
        = (l.get ⟨k + 1, h'⟩).total - (l.get ⟨k, h''⟩).total := by
  induction l with
  | nil => intro p k h h'; cases h'
  | cons x xs ih =>
    intro p k h h' h''
    cases k with
    | zero =>
      cases xs with
      | nil => simp at h'
      | cons y ys => exact rfl
    | succ k =>
      have hx1 : k + 1 < xs.length := by
        simp only [List.length_cons] at h'
        omega
      exact ih (some x.total) k (by rw [diffNotes_length]; exact hx1) hx1 (by omega)

theorem mem_diffNotes_note (l : List Obs) :
    ∀ (p : Option Int) (r : NRow), r ∈ diffNotes p l →
      r.note = (if r.idx = 0 then Note.Assumed else Note.Delta) := by
  induction l with
  | nil => intro p r h; cases h
  | cons x xs ih =>
    intro p r h
    rcases List.mem_cons.mp h with h' | h'
    · subst h'
      rfl
    · exact ih (some x.total) r h'

theorem find_date_consecutive (nr : List NRow) :
    ∀ (d0 : Int),
      (∀ (k : Nat) (h : k < nr.length), (nr.get ⟨k, h⟩).date = d0 + (k : Int)) →
      ∀ (j : Nat) (h : j < nr.length),
        nr.find? (fun r => decide (r.date = d0 + (j : Int)))
          = some (nr.get ⟨j, h⟩) := by
  induction nr with
  | nil => intro d0 _ j h; cases h
  | cons x l ih =>
    intro d0 hd j h
    have hx : x.date = d0 := by
      have h0 := hd 0 (by omega)
      simpa using h0
    cases j with
    | zero =>
      rw [List.find?_cons_of_pos _ (by simp [hx])]
      rfl
    | succ j =>
      rw [List.find?_cons_of_neg _ (by simp only [decide_eq_true_eq, hx]; intro hc; omega)]
      have hd' : ∀ (k : Nat) (hk : k < l.length),
          (l.get ⟨k, hk⟩).date = (d0 + 1) + (k : Int) := by
        intro k hk
        have hk1 := hd (k + 1) (by simp only [List.length_cons]; omega)
        have hcast : d0 + ((k + 1 : Nat) : Int) = (d0 + 1) + (k : Int) := by
          push_cast
          ring
        rw [← hcast]
        exact hk1
      have heq : d0 + ((j + 1 : Nat) : Int) = (d0 + 1) + (j : Int) := by
        push_cast
        ring
      simp only [heq]
      exact ih (d0 + 1) hd' j (by simp only [List.length_cons] at h; omega)

/-! ### Helper lemmas: gap-free series -/

theorem normalize_length (df : List Obs) : (normalize df).length = df.length :=
  diffNotes_length df none

theorem consec_dmin (df : List Obs) (d0 : Int) (hne : df ≠ [])
    (hd0 : ∀ (k : Nat) (h : k < df.length), (df.get ⟨k, h⟩).date = d0 + (k : Int)) :
    dminD df = d0 := by
  cases df with
  | nil => exact absurd rfl hne
  | cons x xs =>
    have hx : x.date = d0 := by simpa using hd0 0 (by simp)
    unfold dminD
    apply le_antisymm
    · rw [← hx]
      exact foldl_min_le_init xs x.date
    · apply le_foldl_min
      · omega
      · intro r hr
        obtain ⟨⟨k, hk⟩, hkr⟩ := List.mem_iff_get.mp (List.mem_cons_of_mem x hr)
        rw [← hkr, hd0 k hk]
        omega

theorem consec_dmax (df : List Obs) (d0 : Int) (hne : df ≠ [])
    (hd0 : ∀ (k : Nat) (h : k < df.length), (df.get ⟨k, h⟩).date = d0 + (k : Int)) :
    dmaxD df = d0 + ((df.length - 1 : Nat) : Int) := by
  cases df with
  | nil => exact absurd rfl hne
  | cons x xs =>
    have hx : x.date = d0 := by simpa using hd0 0 (by simp)
    unfold dmaxD
    apply le_antisymm
    · apply foldl_max_le
      · rw [hx]
        simp only [List.length_cons]
        omega
      · intro r hr
        obtain ⟨⟨k, hk⟩, hkr⟩ := List.mem_iff_get.mp (List.mem_cons_of_mem x hr)
        rw [← hkr, hd0 k hk]
        simp only [List.length_cons] at hk ⊢
        omega
    · have hk : (x :: xs).length - 1 < (x :: xs).length := by
        simp only [List.length_cons]
        omega
      have hlast := hd0 ((x :: xs).length - 1) hk
      rw [← hlast]
      have hmem : (x :: xs).get ⟨(x :: xs).length - 1, hk⟩ ∈ (x :: xs) :=
        List.get_mem _ _ hk
      rcases List.mem_cons.mp hmem with hm | hm
      · rw [hm]
        exact init_le_foldl_max xs x.date
      · exact mem_le_foldl_max xs x.date _ hm

theorem consec_nDays (df : List Obs) (d0 : Int) (hne : df ≠ [])
    (hd0 : ∀ (k : Nat) (h : k < df.length), (df.get ⟨k, h⟩).date = d0 + (k : Int)) :
    nDays df = df.length := by
  have hpos : 0 < df.length := List.length_pos.mpr hne
  unfold nDays
  rw [consec_dmin df d0 hne hd0, consec_dmax df d0 hne hd0]
  omega

theorem consec_rowAt (df : List Obs) (d0 : Int) (hne : df ≠ [])
    (hd0 : ∀ (k : Nat) (h : k < df.length), (df.get ⟨k, h⟩).date = d0 + (k : Int)) :
    ∀ (j : Nat) (h : j < df.length),
      rowAt (normalize df) (dminD df + (j : Int))
        = some ((normalize df).get ⟨j, by rw [normalize_length]; exact h⟩) := by
  intro j h
  have hdates : ∀ (k : Nat) (hk : k < (normalize df).length),
      ((normalize df).get ⟨k, hk⟩).date = dminD df + (k : Int) := by
    intro k hk
    have hk' : k < df.length := by rw [normalize_length] at hk; exact hk
    have h1 : ((normalize df).get ⟨k, hk⟩).date = (df.get ⟨k, hk'⟩).date :=
      (diffNotes_get_basic df none k hk hk').1
    rw [h1, hd0 k hk', consec_dmin df d0 hne hd0]
  exact find_date_consecutive (normalize df) (dminD df) hdates j
    (by rw [normalize_length]; exact h)

theorem consec_totF (df : List Obs) (d0 : Int) (hne : df ≠ [])
    (hd0 : ∀ (k : Nat) (h : k < df.length), (df.get ⟨k, h⟩).date = d0 + (k : Int))
    (j : Nat) (h : j < df.length) :
    totF df j = some ((df.get ⟨j, h⟩).total) := by
  unfold totF
  rw [consec_rowAt df d0 hne hd0 j h]
  simp only [Option.map_some']
  exact congrArg some (diffNotes_get_basic df none j _ h).2.1

theorem consec_daily0_succ (df : List Obs) (d0 : Int) (hne : df ≠ [])
    (hd0 : ∀ (k : Nat) (h : k < df.length), (df.get ⟨k, h⟩).date = d0 + (k : Int))
    (k : Nat) (h1 : k + 1 < df.length) :
    daily0F df (k + 1)
      = some ((df.get ⟨k + 1, h1⟩).total - (df.get ⟨k, by omega⟩).total) := by
  unfold daily0F
  rw [consec_rowAt df d0 hne hd0 (k + 1) h1]
  simp only [Option.map_some']
  exact congrArg some (diffNotes_get_daily df none k _ h1 (by omega))

/-! ### Claim C8 -/

/-- C8: for a gap-free input (dates are consecutive calendar days) on
which no day is flagged anomalous, the output deltas equal the raw
day-over-day differences of the cumulative totals exactly. -/
theorem c8_roundtrip (m : Model) (c : Contam) (df : List Obs) (d0 : Int)
    (hne : df ≠ [])
    (hd0 : ∀ (k : Nat) (h : k < df.length), (df.get ⟨k, h⟩).date = d0 + (k : Int))
    (hflags : ∀ j, j < nDays df → anomF m c df j = false) :
    ∀ (j : Nat) (h : j < df.length), 1 ≤ j →
      dailyOutF m c df j
        = (df.get ⟨j, h⟩).total - (df.get ⟨j - 1, by omega⟩).total := by
  have hnd : nDays df = df.length := consec_nDays df d0 hne hd0
  have htot : ∀ (k : Nat) (hk : k < df.length),
      totF df k = some ((df.get ⟨k, hk⟩).total) := consec_totF df d0 hne hd0
  have htotne : ∀ k, k < df.length → totF df k ≠ none := by
    intro k hk
    rw [htot k hk]
    simp
  intro j h hj1
  obtain ⟨k, rfl⟩ : ∃ k, j = k + 1 := ⟨j - 1, by omega⟩
  have hdval : daily1F df (k + 1)
      = (df.get ⟨k + 1, h⟩).total - (df.get ⟨k, by omega⟩).total := by
    rcases Nat.lt_or_ge (k + 2) df.length with hmid | hlastge
    · -- interior observed day: the loop never writes to it
      have hunch := gapFill_point_eq (totF df) (nDays df) (daily0F df, note0F df)
        (k + 1) (by
          intro i hi1 hin htrg hfwd hsb
          rcases Nat.lt_or_ge k i with hgt | hle
          · rcases Nat.lt_or_ge i (k + 2) with hik | hik
            · -- i = k + 1: both triggers are impossible
              have hik1 : i = k + 1 := by omega
              subst hik1
              rcases htrg with htrg | htrg
              · exact absurd htrg (htotne (k + 1) h)
              · omega
            · -- i ≥ k + 2: the back scan stops at or after k + 1
              have := scanBack_ge_of_known (totF df) (k + 1) (i - 1) (by omega)
                (htotne (k + 1) h)
              omega
          · -- i ≤ k: the forward scan stops at or before k
            have := scanFwd_le_of_known (totF df) (nDays df) i k hle
              (by omega) (htotne k (by omega))
            omega)
      unfold daily1F fillDaily
      rw [hunch.1]
      show (daily0F df (k + 1)).getD 0 = _
      rw [consec_daily0_succ df d0 hne hd0 k h]
      rfl
    · -- last day: the loop rewrites it with round(delta / 1) = delta
      have hlast : k + 2 = df.length := by omega
      have hcore := gapFill_gap_core (totF df) (nDays df) (daily0F df, note0F df)
        k (k + 1) ((df.get ⟨k, by omega⟩).total) ((df.get ⟨k + 1, h⟩).total) (k + 1)
        (htot k (by omega)) (htot (k + 1) h) (by omega) (by rw [hnd]; omega)
        (fun m h1 h2 => by omega) (by omega) (by rw [hnd]; omega)
        (Or.inr (by rw [hnd]; omega))
        (scanBack_self (totF df) k (htotne k (by omega)))
        (scanFwd_eq_of (totF df) (nDays df) (k + 1) (k + 1) (le_refl _)
          (by rw [hnd]; omega) (htotne (k + 1) h) (fun m h1 h2 => by omega))
        (k + 1) (by omega) (le_refl _)
      unfold daily1F fillDaily
      rw [hcore.1]
      have hone : (k + 1) - k = 1 := by omega
      rw [hone]
      exact iround_one _
  have hflag : anomF m c df (k + 1) = false := hflags (k + 1) (by omega)
  have hmasked : maskedOf (anomF m c df) (daily1F df) (k + 1)
      = some (daily1F df (k + 1)) := by
    unfold maskedOf
    rw [hflag]
    rfl
  unfold dailyOutF
  rw [corrDaily_valid _ _ _ _ hmasked, hdval]
  rfl

/-- C8 witness: the gap-free series `[(1,100),(2,110),(3,130)]` with a
model that flags nothing returns the raw differences 10 and 20. -/
theorem c8_witness :
    dailyOutF m0 Contam.auto dfC 1 = 10 ∧ dailyOutF m0 Contam.auto dfC 2 = 20 := by
  have hd0 : ∀ (k : Nat) (h : k < dfC.length),
      (dfC.get ⟨k, h⟩).date = 1 + (k : Int) := by
    intro k hk
    have h3 : k < 3 := by
      have hlen : dfC.length = 3 := by decide
      omega
    interval_cases k <;> rfl
  have hflags : ∀ j, j < nDays dfC → anomF m0 Contam.auto dfC j = false := by
    intro j hj
    have h3 : j < 3 := by
      have hlen : nDays dfC = 3 := by decide
      omega
    interval_cases j <;> decide
  have h := c8_roundtrip m0 Contam.auto dfC 1 (by decide) hd0 hflags
  constructor
  · rw [h 1 (by decide) (by decide)]
    decide
  · rw [h 2 (by decide) (by decide)]
    decide

/-! ### Claim C1 -/

/-- C1: for every gap bounded by a known cumulative total on both
sides (anchors `s < e`, at least one strictly interior day, all
interior totals missing), the gap filler assigns to every day strictly
between the anchors and to the end anchor's slot the single uniform
integer `round((ev - sv) / (e - s))`, and tags all of these days
Assumed. -/
theorem c1_gap_uniform (tot : Nat → Option Int) (n : Nat) (st : GapSt)
    (s e : Nat) (sv ev : Int)
    (hs : tot s = some sv) (he : tot e = some ev)
    (hwidth : s + 2 ≤ e) (hen : e < n)
    (hgap : ∀ k, s < k → k < e → tot k = none) :
    ∀ j, s < j → j ≤ e →
      fillDaily tot n st j = iround (ev - sv) (e - s) ∧
      fillNote tot n st j = Note.Assumed := by
  have hsb : scanBack tot (s + 1 - 1) = s := scanBack_self tot s (by simp [hs])
  have hsf : scanFwd tot n (s + 1) = e :=
    scanFwd_eq_of tot n (s + 1) e (by omega) hen (by simp [he])
      (fun m h1 h2 => hgap m (by omega) h2)
  have hcore := gapFill_gap_core tot n st s e sv ev (s + 1) hs he (by omega) hen
    hgap (by omega) (by omega) (Or.inl (hgap (s + 1) (by omega) (by omega))) hsb hsf
  intro j h1 h2
  have hj := hcore j h1 h2
  constructor
  · unfold fillDaily
    rw [hj.1]
    rfl
  · unfold fillNote
    rw [hj.2]
    rfl

/-- C1 witness: the spec's scenario `[(1/1,100),(1/3,130)]` formed by
the pipeline; the gap filler puts `round(30/2) = 15` on days 1 and 2
of the 3-day frame, both tagged Assumed. -/
theorem c1_witness :
    fillDaily (totF dfA) (nDays dfA) (daily0F dfA, note0F dfA) 1 = 15 ∧
    fillDaily (totF dfA) (nDays dfA) (daily0F dfA, note0F dfA) 2 = 15 ∧
    fillNote (totF dfA) (nDays dfA) (daily0F dfA, note0F dfA) 1 = Note.Assumed ∧
    fillNote (totF dfA) (nDays dfA) (daily0F dfA, note0F dfA) 2 = Note.Assumed := by
  have h := c1_gap_uniform (totF dfA) (nDays dfA) (daily0F dfA, note0F dfA)
    0 2 100 130 (by decide) (by decide) (by decide) (by decide)
    (by
      intro k h1 h2
      have hk : k = 1 := by omega
      subst hk
      decide)
  have h1 := h 1 (by decide) (by decide)
  have h2 := h 2 (by decide) (by decide)
  refine ⟨?_, ?_, h1.2, h2.2⟩
  · rw [h1.1]; decide
  · rw [h2.1]; decide

/-! ### Claim C5 -/

/-- C5 counterexample: on the scenario input `[(1,100),(3,130)]` the
day with date 3 had a raw observation — its normalized row carries the
diff delta 30 and the tag Delta (the spec's Original) — and it is not
day 0; yet after gap filling its delta is 15 and its tag Assumed,
because the loop also rewrites the gap's end anchor. -/
theorem c5_counterexample :
    rowAt (normalize dfA) (dminD dfA + ((2 : Nat) : Int))
      = some ⟨1, 3, 130, 30, Note.Delta⟩ ∧
    daily1F dfA 2 = 15 ∧ note1F dfA 2 = Note.Assumed := by
  decide

/-- C5 amended: after gap filling, every day that had a raw
observation, other than day 0, whose preceding calendar day is also
observed and which is not the final day of the frame, retains the
normalizer delta and the Delta (Original) tag; the gap filler
additionally rewrites each gap's end anchor and the final day. -/
theorem c5_frame (df : List Obs) (j : Nat) (r r' : NRow)
    (hj1 : 1 ≤ j) (hj2 : j + 1 < nDays df)
    (hr' : rowAt (normalize df) (dminD df + ((j - 1 : Nat) : Int)) = some r')
    (hr : rowAt (normalize df) (dminD df + (j : Int)) = some r)
    (hidx : r.idx ≠ 0) :
    daily1F df j = r.daily ∧ note1F df j = Note.Delta := by
  have htj : totF df j = some r.total := by
    unfold totF
    rw [hr]
    rfl
  have htj' : totF df (j - 1) = some r'.total := by
    unfold totF
    rw [hr']
    rfl
  have hne1 : totF df j ≠ none := by
    rw [htj]
    simp
  have hne1' : totF df (j - 1) ≠ none := by
    rw [htj']
    simp
  have hunch := gapFill_point_eq (totF df) (nDays df) (daily0F df, note0F df) j (by
    intro i hi1 hin htrg hfwd hsb
    rcases Nat.lt_or_ge j i with hgt | hle
    · have := scanBack_ge_of_known (totF df) j (i - 1) (by omega) hne1
      omega
    · rcases Nat.lt_or_ge i j with hlt | hge
      · have := scanFwd_le_of_known (totF df) (nDays df) i (j - 1) (by omega)
          (by omega) hne1'
        omega
      · have hij : i = j := by omega
        subst hij
        rcases htrg with htrg | htrg
        · exact absurd htrg hne1
        · omega)
  constructor
  · unfold daily1F fillDaily
    rw [hunch.1]
    show (daily0F df j).getD 0 = r.daily
    unfold daily0F
    rw [hr]
    rfl
  · unfold note1F fillNote
    rw [hunch.2]
    show (note0F df j).getD Note.Assumed = Note.Delta
    unfold note0F
    rw [hr]
    show r.note = Note.Delta
    unfold rowAt at hr
    have hmem : r ∈ normalize df := List.mem_of_find?_eq_some hr
    rw [mem_diffNotes_note df none r hmem, if_neg hidx]

/-- C5 witness: in the gap-free series `[(1,100),(2,110),(3,130)]`
the middle observed day keeps delta 10 and the Delta tag. -/
theorem c5_witness :
    daily1F dfC 1 = 10 ∧ note1F dfC 1 = Note.Delta :=
  c5_frame dfC 1 ⟨1, 2, 110, 10, Note.Delta⟩ ⟨0, 1, 100, 0, Note.Assumed⟩
    (by decide) (by decide) (by decide) (by decide) (by decide)

/-! ### Helper lemmas: sorting and deduplication -/

theorem mem_insertByDate (x : Obs) :
    ∀ (l : List Obs) (y : Obs), y ∈ insertByDate x l ↔ y = x ∨ y ∈ l := by
  intro l
  induction l with
  | nil => intro y; simp [insertByDate]
  | cons z zs ih =>
    intro y
    unfold insertByDate
    split
    · simp [List.mem_cons]
    · rw [List.mem_cons, ih y, List.mem_cons]
      tauto

theorem mem_sortValues :
    ∀ (l : List Obs) (y : Obs), y ∈ sortValues l ↔ y ∈ l := by
  intro l
  induction l with
  | nil => intro y; exact Iff.rfl
  | cons x xs ih =>
    intro y
    show y ∈ insertByDate x (sortValues xs) ↔ _
    rw [mem_insertByDate x (sortValues xs) y, ih y, List.mem_cons]

theorem insertByDate_sorted (x : Obs) :
    ∀ (l : List Obs), l.Pairwise (fun a b => a.date ≤ b.date) →
      (insertByDate x l).Pairwise (fun a b => a.date ≤ b.date) := by
  intro l
  induction l with
  | nil => intro _; simp [insertByDate]
  | cons z zs ih =>
    intro hp
    unfold insertByDate
    split
    · rename_i hxz
      refine List.Pairwise.cons ?_ hp
      intro b hb
      rcases List.mem_cons.mp hb with hb | hb
      · rw [hb]
        exact hxz
      · exact le_trans hxz ((List.pairwise_cons.mp hp).1 b hb)
    · rename_i hxz
      have hzx : z.date ≤ x.date := le_of_not_le hxz
      obtain ⟨hz, hzs⟩ := List.pairwise_cons.mp hp
      refine List.Pairwise.cons ?_ (ih hzs)
      intro b hb
      rcases (mem_insertByDate x zs b).mp hb with hb | hb
      · rw [hb]
        exact hzx
      · exact hz b hb

theorem sortValues_sorted :
    ∀ (l : List Obs), (sortValues l).Pairwise (fun a b => a.date ≤ b.date) := by
  intro l
  induction l with
  | nil => exact List.Pairwise.nil
  | cons x xs ih => exact insertByDate_sorted x (sortValues xs) ih

theorem insertByDate_front (x : Obs) (l : List Obs)
    (h : ∀ y ∈ l, x.date ≤ y.date) : insertByDate x l = x :: l := by
  cases l with
  | nil => rfl
  | cons z zs =>
    unfold insertByDate
    rw [if_pos (h z (List.mem_cons_self _ _))]

theorem mem_dropDupAux :
    ∀ (l : List Obs) (seen : List Int) (y : Obs), y ∈ dropDupAux seen l → y ∈ l := by
  intro l
  induction l with
  | nil => intro seen y h; cases h
  | cons x xs ih =>
    intro seen y h
    unfold dropDupAux at h
    split at h
    · exact List.mem_cons_of_mem _ (ih _ y h)
    · rcases List.mem_cons.mp h with h' | h'
      · rw [h']
        exact List.mem_cons_self _ _
      · exact List.mem_cons_of_mem _ (ih _ y h')

theorem mem_enumObsFrom_date :
    ∀ (l : List (Int × Int)) (k : Nat) (y : Obs),
      y ∈ enumObsFrom k l → ∃ p ∈ l, y.date = p.1 := by
  intro l
  induction l with
  | nil => intro k y h; cases h
  | cons p ps ih =>
    intro k y h
    rcases List.mem_cons.mp h with h' | h'
    · exact ⟨p, List.mem_cons_self _ _, by rw [h']⟩
    · obtain ⟨q, hq, hd⟩ := ih (k + 1) y h'
      exact ⟨q, List.mem_cons_of_mem _ hq, hd⟩

theorem sorted_head_dmin (x : Obs) (l : List Obs)
    (hs : (x :: l).Pairwise (fun a b => a.date ≤ b.date)) :
    dminD (x :: l) = x.date := by
  unfold dminD
  exact le_antisymm (foldl_min_le_init l x.date)
    (le_foldl_min l x.date x.date (le_refl _) (List.pairwise_cons.mp hs).1)

theorem gapFill_zero (tot : Nat → Option Int) (n : Nat) (st : GapSt) :
    (gapFill tot n st).1 0 = st.1 0 ∧ (gapFill tot n st).2 0 = st.2 0 :=
  gapFill_point_eq tot n st 0 (fun i _ _ _ _ _ => Or.inl (by omega))

theorem first_day_vals (df : List Obs) (hne : df ≠ [])
    (hs : df.Pairwise (fun a b => a.date ≤ b.date)) :
    ∃ x xs, df = x :: xs ∧ daily0F df 0 = some 0 ∧
      note0F df 0 = some (if x.idx = 0 then Note.Assumed else Note.Delta) := by
  cases df with
  | nil => exact absurd rfl hne
  | cons x xs =>
    refine ⟨x, xs, rfl, ?_, ?_⟩
    · unfold daily0F rowAt
      rw [show normalize (x :: xs)
          = (⟨x.idx, x.date, x.total, 0,
              if x.idx = 0 then Note.Assumed else Note.Delta⟩ : NRow)
            :: diffNotes (some x.total) xs from rfl]
      rw [List.find?_cons_of_pos _ (by
        simp only [decide_eq_true_eq]
        show x.date = dminD (x :: xs) + ((0 : Nat) : Int)
        rw [sorted_head_dmin x xs hs]
        simp)]
      rfl
    · unfold note0F rowAt
      rw [show normalize (x :: xs)
          = (⟨x.idx, x.date, x.total, 0,
              if x.idx = 0 then Note.Assumed else Note.Delta⟩ : NRow)
            :: diffNotes (some x.total) xs from rfl]
      rw [List.find?_cons_of_pos _ (by
        simp only [decide_eq_true_eq]
        show x.date = dminD (x :: xs) + ((0 : Nat) : Int)
        rw [sorted_head_dmin x xs hs]
        simp)]
      rfl

/-! ### Claim C6 -/

/-- C6 counterexample: the unsorted input `[(3,130),(1,100)]` (the
earliest date is not the first file row) yields a first output day
with delta 0 but tag Delta, not Assumed: line 26 tags the row whose
pandas index label is 0, i.e. the first file row, which after sorting
is not the earliest day. -/
theorem c6_counterexample :
    dailyOutF m0 Contam.auto dfB 0 = 0 ∧
    noteOutF m0 Contam.auto dfB 0 = Note.Delta := by
  decide

/-- C6 amended: the first calendar day of the output always carries
delta 0; it is tagged Assumed provided the input's first row carries
the minimal date (in particular for sorted input) — otherwise the
Assumed tag lands on the mid-series row that was first in the file. -/
theorem c6_first_day (m : Model) (c : Contam) (raw : List (Int × Int))
    (h : raw ≠ []) :
    dailyOutF m c (load_data raw) 0 = 0 ∧
    ((∀ p ∈ raw, (raw.head h).1 ≤ p.1) →
      noteOutF m c (load_data raw) 0 = Note.Assumed) := by
  have hne := load_data_ne_nil raw h
  have hsort : (load_data raw).Pairwise (fun a b => a.date ≤ b.date) :=
    sortValues_sorted _
  obtain ⟨x, xs, hdf, hdaily0, hnote0⟩ := first_day_vals (load_data raw) hne hsort
  have hz := gapFill_zero (totF (load_data raw)) (nDays (load_data raw))
    (daily0F (load_data raw), note0F (load_data raw))
  have hdaily1 : daily1F (load_data raw) 0 = 0 := by
    unfold daily1F fillDaily
    rw [hz.1]
    show (daily0F (load_data raw) 0).getD 0 = 0
    rw [hdaily0]
    rfl
  constructor
  · unfold dailyOutF
    by_cases ha : anomF m c (load_data raw) 0 = true
    · exact corr_leading _ _ _ 0 (fun k hk => by
        have hk0 : k = 0 := by omega
        rw [hk0]
        exact ha)
    · have ha' : anomF m c (load_data raw) 0 = false := by
        revert ha
        cases anomF m c (load_data raw) 0 <;> simp
      rw [corrDaily_valid _ _ _ (daily1F (load_data raw) 0) (by
        unfold maskedOf
        rw [ha']
        rfl)]
      exact hdaily1
  · intro hmin
    cases raw with
    | nil => exact absurd rfl h
    | cons p ps =>
      have hload : load_data (p :: ps)
          = (⟨0, p.1, p.2⟩ : Obs) :: sortValues (dropDupAux [p.1] (enumObsFrom 1 ps)) := by
        show sortValues (dropDuplicates (enumObsFrom 0 (p :: ps))) = _
        rw [show enumObsFrom 0 (p :: ps)
            = (⟨0, p.1, p.2⟩ : Obs) :: enumObsFrom 1 ps from rfl,
          dropDuplicates_cons]
        show insertByDate (⟨0, p.1, p.2⟩ : Obs)
            (sortValues (dropDupAux [p.1] (enumObsFrom 1 ps))) = _
        apply insertByDate_front
        intro y hy
        obtain ⟨q, hq, hdq⟩ := mem_enumObsFrom_date _ 1 y
          (mem_dropDupAux _ _ y ((mem_sortValues _ y).mp hy))
        show p.1 ≤ y.date
        rw [hdq]
        exact hmin q (List.mem_cons_of_mem _ hq)
      have hx0 : x.idx = 0 := by
        rw [hdf] at hload
        have := (List.cons.injEq _ _ _ _).mp hload
        rw [this.1]
      have hnote1 : note1F (load_data (p :: ps)) 0 = Note.Assumed := by
        unfold note1F fillNote
        rw [hz.2]
        show (note0F (load_data (p :: ps)) 0).getD Note.Assumed = Note.Assumed
        rw [hnote0, hx0]
        rfl
      unfold noteOutF corrNote
      split
      · rfl
      · exact hnote1

/-- C6 witness: for the sorted scenario input the first day carries
delta 0 and the Assumed tag. -/
theorem c6_witness :
    dailyOutF m0 Contam.auto dfA 0 = 0 ∧
    noteOutF m0 Contam.auto dfA 0 = Note.Assumed := by
  have h := c6_first_day m0 Contam.auto [(1, 100), (3, 130)] (by decide)
  exact ⟨h.1, h.2 (by decide)⟩

/-! ### Claim C3 -/

/-- C3: the per-day anomaly flag is true exactly when the model labels
the day an outlier (score `-1`) or the day's delta is below zero. -/
theorem c3_negative_override (m : Model) (c : Contam) (df : List Obs) (j : Nat) :
    anomF m c df j = true ↔ scoresF m c df j = -1 ∨ daily1F df j < 0 := by
  simp [anomF, anomOf]

/-! ### Claim C4 -/

/-- C4 counterexample: in `dfD` the deltas after gap filling are
`[0, 10, -5]`, so day 2 is a flagged (negative) trailing run with a
non-flagged value only on its left; the corrector pads it with the
last valid value 10 — not with 0 as the claim states. -/
theorem c4_counterexample :
    anomF m0 Contam.auto dfD 2 = true ∧
    anomF m0 Contam.auto dfD 1 = false ∧
    dailyOutF m0 Contam.auto dfD 2 = 10 ∧
    ¬ dailyOutF m0 Contam.auto dfD 2 = 0 := by
  refine ⟨by decide, by decide, by decide, ?_⟩
  intro h
  rw [show dailyOutF m0 Contam.auto dfD 2 = 10 from by decide] at h
  cases h

/-- C4 amended: a leading run of flagged days (no non-flagged value on
the left) is filled with 0; a trailing run of flagged days (a last
non-flagged value at `p`, none after it) is filled by padding the
value at `p` forward (pandas `interpolate` pads trailing missing
values with the last valid value), not with 0. -/
theorem c4_boundary_runs (anom : Nat → Bool) (d : Nat → Int) (n : Nat) :
    (∀ j, (∀ k, k ≤ j → anom k = true) →
      corrDaily (maskedOf anom d) n j = 0) ∧
    (∀ j p, anom p = false → p < j → j < n →
      (∀ k, p < k → k < n → anom k = true) →
      corrDaily (maskedOf anom d) n j = d p) :=
  ⟨fun j h => corr_leading anom d n j h,
   fun j p h1 h2 h3 h4 => corr_trailing anom d n p j h1 h2 h3 h4⟩

/-- C4 witness: a fully flagged one-day series is zero-filled, and a
flagged day 1 following the non-flagged value 5 at day 0 (with nothing
valid after it) is padded with 5. -/
theorem c4_witness :
    corrDaily (maskedOf (fun _ => true) (fun _ => 7)) 1 0 = 0 ∧
    corrDaily (maskedOf (fun k => decide (k = 1))
      (fun k => if k = 0 then 5 else 7)) 2 1 = 5 := by
  constructor
  · exact (c4_boundary_runs (fun _ => true) (fun _ => 7) 1).1 0 (fun k hk => rfl)
  · exact (c4_boundary_runs (fun k => decide (k = 1))
      (fun k => if k = 0 then 5 else 7) 2).2 1 0 (by decide) (by decide) (by decide)
      (by
        intro k h1 h2
        have hk : k = 1 := by omega
        subst hk
        decide)

/-! ### Claim C7 -/

/-- C7: when a gap extends to the end of the frame so that no
following known cumulative total exists (all totals from `m` on are
missing), the gap filler leaves every such day's delta at 0 (the
`fillna(0)` of line 56) and its note Assumed (the `fillna("Assumed")`
of line 57), never extrapolating. -/
theorem c7_trailing_gap_zero (tot : Nat → Option Int) (n : Nat) (st : GapSt)
    (m j : Nat) (hall : ∀ k, m ≤ k → k < n → tot k = none) (hmj : m ≤ j)
    (h1 : st.1 j = none) (h2 : st.2 j = none) :
    fillDaily tot n st j = 0 ∧ fillNote tot n st j = Note.Assumed := by
  have hpt := gapFill_point_eq tot n st j (by
    intro i hi1 hin htrg hfwd hsb
    have hk := scanFwd_known_of_lt tot n i hfwd
    rcases Nat.lt_or_ge (scanFwd tot n i) m with hlt | hge
    · right; omega
    · exact absurd (hall _ hge (by omega)) hk)
  unfold fillDaily fillNote
  rw [hpt.1, hpt.2, h1, h2]
  exact ⟨rfl, rfl⟩

/-- C7 witness: a 3-day frame whose totals are known only on day 0;
days 1 and 2 form a trailing gap and end with delta 0, tagged
Assumed. -/
theorem c7_witness :
    fillDaily (fun k => if k = 0 then some 100 else none) 3
      (fun k => if k = 0 then some 0 else none,
       fun k => if k = 0 then some Note.Assumed else none) 2 = 0 ∧
    fillNote (fun k => if k = 0 then some 100 else none) 3
      (fun k => if k = 0 then some 0 else none,
       fun k => if k = 0 then some Note.Assumed else none) 2 = Note.Assumed := by
  refine c7_trailing_gap_zero _ 3 _ 1 2 ?_ (by omega) (by simp) (by simp)
  intro k hk1 hk2
  have hk : k ≠ 0 := by omega
  simp [hk]

/-! ### Claim C9 -/

/-- C9: the anomaly-correction step applied to a series in which no
day is flagged is the identity: every delta and every note is
returned unchanged. -/
theorem c9_corrector_idempotent (anom : Nat → Bool) (d : Nat → Int)
    (nt : Nat → Note) (n : Nat) (h : ∀ j, anom j = false) :
    (∀ j, corrDaily (maskedOf anom d) n j = d j) ∧
    (∀ j, corrNote anom nt j = nt j) := by
  constructor
  · intro j
    exact corrDaily_valid _ _ _ _ (by simp [maskedOf, h j])
  · intro j
    simp [corrNote, h j]

/-- C9 witness: with no flags, the corrector returns day 1 of a
concrete series unchanged. -/
theorem c9_witness :
    corrDaily (maskedOf (fun _ => false) (fun j => (j : Int))) 3 1 = 1 ∧
    corrNote (fun _ => false) (fun _ => Note.Delta) 1 = Note.Delta := by
  have h := c9_corrector_idempotent (fun _ => false) (fun j => (j : Int))
    (fun _ => Note.Delta) 3 (fun _ => rfl)
  exact ⟨h.1 1, h.2 1⟩

/-! ### Claim C10 -/

/-- C10: the pipeline's output depends on the outlier model only
through its behaviour at seed 42 (the hard-coded `random_state=42`):
two runs with models that agree at that seed, the same input and the
same contamination produce identical outputs. -/
theorem c10_deterministic (m₁ m₂ : Model) (c : Contam) (df : List Obs)
    (h : m₁ 42 = m₂ 42) :
    process_sales_data m₁ c df = process_sales_data m₂ c df := by
  simp only [process_sales_data, dailyOutF, noteOutF, anomF, scoresF, h]

/-- A model that reports no outlier at seed 42 and everything an
outlier elsewhere; agrees with `m0` at seed 42 only. -/
def m1 : Model := fun s _ _ _ => if s = 42 then 1 else -1

/-- C10 witness: `m0` and `m1` agree at seed 42, so the two runs on
the scenario input coincide. -/
theorem c10_witness :
    process_sales_data m0 Contam.auto dfA = process_sales_data m1 Contam.auto dfA :=
  c10_deterministic m0 m1 Contam.auto dfA rfl

end CorrectSales
